import Mathlib

set_option maxRecDepth 8192

/-!
Verification of the PNG metadata-embedding encoder of
`src/services/imageService.ts`.

Bytes are modelled as `Nat` values (a `Uint8Array` element is always below
256); 32-bit arithmetic is carried out on `Nat` with explicit masking, so
that every value that the JavaScript code keeps as an unsigned 32-bit
quantity stays below `2 ^ 32`.
-/

namespace ImageService

/-- The metadata record handed to the encoder (`ImageMetadata` in
`types.ts`): six string fields. -/
structure ImageMetadata where
  title : String
  author : String
  description : String
  keywords : String
  copyright : String
  date : String

/-- One round of the inner loop of the CRC-table construction:
`if (c & 1) c = 0xedb88320 ^ (c >>> 1); else c = c >>> 1;`. -/
def crcStep (c : Nat) : Nat :=
  if c % 2 = 1 then Nat.xor 0xedb88320 (c >>> 1) else c >>> 1

/-- Entry `n` of the CRC table: eight applications of `crcStep` to `n`
(the `for (let k = 0; k < 8; k++)` loop). -/
def crcEntry (n : Nat) : Nat :=
  (List.range 8).foldl (fun c _ => crcStep c) n

/-- The precomputed 256-entry CRC table (`crcTable` in the source). -/
def crcTable : List Nat :=
  (List.range 256).map crcEntry

/-- `crc32` from the source: the accumulator starts at `0 ^ (-1)`
(bit pattern `0xFFFFFFFF`), each byte is folded by
`crc = (crc >>> 8) ^ crcTable[(crc ^ buf[i]) & 0xFF]`, and the result is
`(crc ^ (-1)) >>> 0`, i.e. the complemented accumulator read as an
unsigned 32-bit value. -/
def crc32 (buf : List Nat) : Nat :=
  Nat.xor
    (buf.foldl
      (fun crc b => Nat.xor (crc >>> 8) (crcTable.getD (Nat.land (Nat.xor crc b) 0xFF) 0))
      0xFFFFFFFF)
    0xFFFFFFFF

/-- UTF-8 encoding of one Unicode scalar value, as emitted by
`TextEncoder.encode` for a well-formed string. -/
def utf8Char (c : Nat) : List Nat :=
  if c < 0x80 then [c]
  else if c < 0x800 then [0xC0 ||| (c >>> 6), 0x80 ||| (Nat.land c 0x3F)]
  else if c < 0x10000 then
    [0xE0 ||| (c >>> 12), 0x80 ||| (Nat.land (c >>> 6) 0x3F), 0x80 ||| (Nat.land c 0x3F)]
  else
    [0xF0 ||| (c >>> 18), 0x80 ||| (Nat.land (c >>> 12) 0x3F),
     0x80 ||| (Nat.land (c >>> 6) 0x3F), 0x80 ||| (Nat.land c 0x3F)]

/-- UTF-8 bytes of a string (`new TextEncoder().encode(s)`). -/
def utf8 (s : String) : List Nat :=
  (s.data.map (fun c => utf8Char c.toNat)).flatten

/-- Big-endian 4-byte encoding of a number, as
`DataView.setUint32(_, n, false)` stores it (the value is reduced modulo
`2 ^ 32` by the store). -/
def be32 (n : Nat) : List Nat :=
  [(n >>> 24) % 256, (n >>> 16) % 256, (n >>> 8) % 256, n % 256]

/-- Big-endian 32-bit read of the first four entries of a byte list
(`DataView.getUint32(pos, false)` on the suffix starting at `pos`). -/
def readBE32 (l : List Nat) : Nat :=
  l.getD 0 0 * 2 ^ 24 + l.getD 1 0 * 2 ^ 16 + l.getD 2 0 * 2 ^ 8 + l.getD 3 0

/-- Byte values stored for a chunk-type string: the first four UTF-16 code
units, truncated to bytes by the `Uint8Array` store
(`buf[4 + i] = type.charCodeAt(i)`; every call site passes a 4-character
ASCII tag). -/
def typeBytes (type : String) : List Nat :=
  (type.data.take 4).map (fun c => c.toNat % 256)

/-- `createChunk` from the source: 4-byte big-endian data length, 4 type
bytes, the data, and the big-endian CRC-32 of `type ++ data`. -/
def createChunk (type : String) (data : List Nat) : List Nat :=
  be32 data.length ++ typeBytes type ++ data ++ be32 (crc32 (typeBytes type ++ data))

/-- The keyword/value pairs of the `keywords` object literal, in
`Object.entries` insertion order.  The record's `keywords` field is never
emitted (that line is commented out in the source) and `Software` is a
constant. -/
def keywordPairs (m : ImageMetadata) : List (String × String) :=
  [("Title", m.title), ("Author", m.author), ("Description", m.description),
   ("Copyright", m.copyright), ("Creation Time", m.date),
   ("Software", "Link2Infographic AI")]

/-- Payload of one text chunk: UTF-8 keyword, a 0 separator, UTF-8 value. -/
def textChunkData (key value : String) : List Nat :=
  utf8 key ++ 0 :: utf8 value

/-- The serialized text chunks, skipping falsy (empty-string) values, all
with type tag `"tEXt"`. -/
def textChunks (m : ImageMetadata) : List (List Nat) :=
  (keywordPairs m).filterMap fun p =>
    if p.2 = "" then none else some (createChunk "tEXt" (textChunkData p.1 p.2))

/-- The byte values of the tag `'IHDR'` that the splice loop compares
against. -/
def ihdrType : List Nat := [73, 72, 68, 82]

/-- The chunk-splicing loop of `downloadWithMetadata`, expressed on the
remaining suffix `bs = bytes.drop pos` of the input, with an explicit fuel
argument to make the recursion structural (each iteration of the source
loop consumes at least 12 bytes, so `bs.length` fuel is always enough; the
out-of-fuel branch is unreachable from `encodeLoop` below).  `none` models
the `RangeError` thrown by `DataView.getUint32` when fewer than 4 bytes
remain at a chunk boundary (the only statement of the loop that can
throw); `some t` is the concatenation of all parts pushed from this
position on.  `bytes.slice(pos, pos + total)` clamps, hence `take total`;
a type byte read past the end yields character code 0, hence `getD _ 0`. -/
def encodeLoopGo (texts : List (List Nat)) :
    Nat → List Nat → Bool → Option (List Nat)
  | _, [], _ => some []
  | 0, _ :: _, _ => none
  | fuel + 1, bs, inserted =>
    if bs.length < 4 then none
    else
      let total := readBE32 bs + 12
      let typ := [bs.getD 4 0, bs.getD 5 0, bs.getD 6 0, bs.getD 7 0]
      (encodeLoopGo texts fuel (bs.drop total)
          (if typ = ihdrType then true else inserted)).map
        fun t =>
          bs.take total ++ (if typ = ihdrType ∧ inserted = false then texts.flatten else []) ++ t

/-- The splice loop at its call site: the fuel is the length of the
remaining suffix. -/
def encodeLoop (texts : List (List Nat)) (bs : List Nat) (inserted : Bool) :
    Option (List Nat) :=
  encodeLoopGo texts bs.length bs inserted

/-- `downloadWithMetadata` at the byte level: the input is the decoded
byte array, the output the bytes the user receives.  On the success path
the output is `bytes.slice(0, 8)` followed by the pushed parts; if the
parse throws, the `catch` branch downloads the original base64 data, i.e.
the original bytes. -/
def downloadWithMetadata (bytes : List Nat) (m : ImageMetadata) : List Nat :=
  match encodeLoop (textChunks m) (bytes.drop 8) false with
  | some t => bytes.take 8 ++ t
  | none => bytes

/-- The PNG signature `{137, 80, 78, 71, 13, 10, 26, 10}`. -/
def pngSignature : List Nat := [137, 80, 78, 71, 13, 10, 26, 10]

/-- A parsed chunk record: the 4 type bytes, the data bytes, and the CRC
value read from the 4 big-endian CRC bytes. -/
structure Chunk where
  typ : List Nat
  data : List Nat
  crc : Nat
deriving DecidableEq, Repr

/-- Wire form of a chunk record:
`length(4 bytes BE) ++ type ++ data ++ crc(4 bytes BE)`. -/
def serializeChunk (c : Chunk) : List Nat :=
  be32 c.data.length ++ c.typ ++ c.data ++ be32 c.crc

/-- Re-parser used to state the structural claims, with fuel making the
recursion structural (one chunk consumes at least 12 bytes, so the byte
count is enough fuel; the out-of-fuel branch is unreachable from
`parseChunks` below).  Succeeds exactly when the bytes tile into
length/type/data/crc chunks. -/
def parseChunksGo : Nat → List Nat → Option (List Chunk)
  | _, [] => some []
  | 0, _ :: _ => none
  | fuel + 1, bs =>
    let len := readBE32 bs
    if 12 + len ≤ bs.length then
      (parseChunksGo fuel (bs.drop (12 + len))).map
        (⟨(bs.drop 4).take 4, (bs.drop 8).take len,
          readBE32 ((bs.drop (8 + len)).take 4)⟩ :: ·)
    else none

/-- Chunk-stream parser: `some cs` iff the bytes tile exactly into chunks. -/
def parseChunks (bs : List Nat) : Option (List Chunk) :=
  parseChunksGo bs.length bs

/-- The chunk record that one parsing step extracts from the head of a
byte list. -/
def headChunk (bs : List Nat) : Chunk :=
  ⟨(bs.drop 4).take 4, (bs.drop 8).take (readBE32 bs),
   readBE32 ((bs.drop (8 + readBE32 bs)).take 4)⟩

/-- The chunk record that `createChunk type data` serializes. -/
def chunkOf (type : String) (data : List Nat) : Chunk :=
  ⟨typeBytes type, data, crc32 (typeBytes type ++ data)⟩

/-- The record of the text chunk created for one keyword/value pair. -/
def textRecord (key value : String) : Chunk :=
  chunkOf "tEXt" (textChunkData key value)

/-- The records of the created text chunks, in creation order. -/
def textRecords (m : ImageMetadata) : List Chunk :=
  (keywordPairs m).filterMap fun p =>
    if p.2 = "" then none else some (textRecord p.1 p.2)

/-- Splicing of the text-chunk records immediately after the first chunk
whose type is `IHDR`; the `inserted` flag of the source makes the
insertion happen at most once, and streams without an `IHDR` chunk get
nothing inserted. -/
def insertAfterIHDR (ts : List Chunk) : List Chunk → List Chunk
  | [] => []
  | c :: cs => if c.typ = ihdrType then c :: (ts ++ cs) else c :: insertAfterIHDR ts cs

/-- The per-chunk CRC invariant: the stored CRC equals the CRC-32 of
`type ++ data`. -/
def chunkValid (c : Chunk) : Prop :=
  c.crc = crc32 (c.typ ++ c.data)

/-- Machine-level well-formedness of a chunk record: 4 type bytes, and a
data length and CRC that fit the 4-byte wire fields. -/
def chunkWF (c : Chunk) : Prop :=
  c.typ.length = 4 ∧ c.data.length < 2 ^ 32 ∧ c.crc < 2 ^ 32

instance (c : Chunk) : Decidable (chunkValid c) := by
  unfold chunkValid
  infer_instance

/-- Whether the splice loop reaches a chunk boundary with fewer than
4 bytes left, i.e. the one place where `DataView.getUint32` throws. -/
def scanThrowsGo : Nat → List Nat → Bool
  | _, [] => false
  | 0, _ :: _ => true
  | fuel + 1, bs =>
    if bs.length < 4 then true
    else scanThrowsGo fuel (bs.drop (readBE32 bs + 12))

/-- `scanThrowsGo` at the fuel the loop runs with. -/
def scanThrows (bs : List Nat) : Bool :=
  scanThrowsGo bs.length bs

/-- Whether the splice loop ever reads the type tag `IHDR` before
finishing or throwing. -/
def scanHitsIHDRGo : Nat → List Nat → Bool
  | _, [] => false
  | 0, _ :: _ => false
  | fuel + 1, bs =>
    if bs.length < 4 then false
    else if [bs.getD 4 0, bs.getD 5 0, bs.getD 6 0, bs.getD 7 0] = ihdrType then true
    else scanHitsIHDRGo fuel (bs.drop (readBE32 bs + 12))

/-- `scanHitsIHDRGo` at the fuel the loop runs with. -/
def scanHitsIHDR (bs : List Nat) : Bool :=
  scanHitsIHDRGo bs.length bs

/-- Number of chunks carrying the plain-text tag `tEXt`. -/
def countTextChunks (cs : List Chunk) : Nat :=
  cs.countP (fun c => c.typ == typeBytes "tEXt")

/-! Concrete inputs used by counterexamples and witnesses. -/

/-- IHDR payload of a 1×1 grayscale image. -/
def ihdrData : List Nat := [0, 0, 0, 1, 0, 0, 0, 1, 8, 0, 0, 0, 0]

/-- A small IDAT payload (a deflate stream for one zero pixel). -/
def idatData : List Nat := [120, 156, 99, 96, 0, 0, 0, 2, 0, 1]

/-- Minimal valid PNG: signature + IHDR + IDAT + IEND. -/
def minimalPNG : List Nat :=
  pngSignature ++ createChunk "IHDR" ihdrData ++ createChunk "IDAT" idatData ++
    createChunk "IEND" []

/-- The chunk records of `minimalPNG`. -/
def minimalChunks : List Chunk :=
  [chunkOf "IHDR" ihdrData, chunkOf "IDAT" idatData, chunkOf "IEND" []]

/-- The all-empty metadata record. -/
def emptyMetadata : ImageMetadata :=
  ⟨"", "", "", "", "", ""⟩

/-- The metadata record of the spec's scenario (§8). -/
def demoMetadata : ImageMetadata :=
  ⟨"Demo", "", "测试", "", "", ""⟩

/-- A metadata record whose title is whitespace-only. -/
def blankTitleMetadata : ImageMetadata :=
  ⟨" ", "", "", "", "", ""⟩

/-- A non-PNG stream (first 8 bytes are zero) that nevertheless carries an
IHDR-framed chunk at offset 8. -/
def zeroHeaderInput : List Nat :=
  [0, 0, 0, 0, 0, 0, 0, 0] ++ createChunk "IHDR" ihdrData

/-- A PNG-signed stream whose second chunk declares 100 data bytes but is
cut off after 2: the declared length extends past the end of the stream. -/
def truncatedInput : List Nat :=
  pngSignature ++ createChunk "IHDR" ihdrData ++ (be32 100 ++ typeBytes "IDAT" ++ [1, 2])

/-! Helper lemmas. -/

theorem crcTable_getD_lt (i : Nat) : crcTable.getD i 0 < 2 ^ 32 := by
  have hall : ∀ x ∈ crcTable, x < 2 ^ 32 := by decide
  rcases Nat.lt_or_ge i crcTable.length with h | h
  · refine hall _ ?_
    rw [List.getD_eq_getElem?_getD, List.getElem?_eq_getElem h]
    exact List.getElem_mem h
  · rw [List.getD_eq_getElem?_getD, List.getElem?_eq_none h]
    norm_num

theorem crc32_lt (buf : List Nat) : crc32 buf < 2 ^ 32 := by
  unfold crc32
  have h : ∀ (l : List Nat) (acc : Nat), acc < 2 ^ 32 →
      l.foldl (fun crc b =>
        Nat.xor (crc >>> 8) (crcTable.getD (Nat.land (Nat.xor crc b) 0xFF) 0)) acc < 2 ^ 32 := by
    intro l
    induction l with
    | nil => intro acc hacc; simpa using hacc
    | cons b l ih =>
      intro acc hacc
      refine ih _ (Nat.xor_lt_two_pow ?_ (crcTable_getD_lt _))
      refine Nat.lt_of_le_of_lt ?_ hacc
      rw [Nat.shiftRight_eq_div_pow]
      exact Nat.div_le_self _ _
  exact Nat.xor_lt_two_pow (h buf _ (by norm_num)) (by norm_num)

theorem length_be32 (n : Nat) : (be32 n).length = 4 := rfl

theorem readBE32_append (l X : List Nat) (h : 4 ≤ l.length) :
    readBE32 (l ++ X) = readBE32 l := by
  unfold readBE32
  rw [List.getD_append _ _ _ _ (by omega), List.getD_append _ _ _ _ (by omega),
      List.getD_append _ _ _ _ (by omega), List.getD_append _ _ _ _ (by omega)]

theorem readBE32_be32 (n : Nat) (h : n < 2 ^ 32) : readBE32 (be32 n) = n := by
  show (n >>> 24) % 256 * 2 ^ 24 + (n >>> 16) % 256 * 2 ^ 16 + (n >>> 8) % 256 * 2 ^ 8 +
      n % 256 = n
  simp only [Nat.shiftRight_eq_div_pow]
  norm_num
  omega

theorem getD_drop (l : List Nat) (n i : Nat) : (l.drop n).getD i 0 = l.getD (n + i) 0 := by
  rw [List.getD_eq_getElem?_getD, List.getD_eq_getElem?_getD, List.getElem?_drop]

theorem getD_take (l : List Nat) (n i : Nat) (h : i < n) :
    (l.take n).getD i 0 = l.getD i 0 := by
  rw [List.getD_eq_getElem?_getD, List.getD_eq_getElem?_getD, List.getElem?_take, if_pos h]

theorem take_four_getD (l : List Nat) (h : 4 ≤ l.length) :
    l.take 4 = [l.getD 0 0, l.getD 1 0, l.getD 2 0, l.getD 3 0] := by
  match l with
  | _ :: _ :: _ :: _ :: _ => rfl
  | [] | [_] | [_, _] | [_, _, _] => simp at h

theorem getD_window (bs : List Nat) (h : 8 ≤ bs.length) :
    (bs.drop 4).take 4 = [bs.getD 4 0, bs.getD 5 0, bs.getD 6 0, bs.getD 7 0] := by
  rw [take_four_getD _ (by simp only [List.length_drop]; omega)]
  simp [getD_drop]

theorem readBE32_take (bs : List Nat) (n : Nat) (h : 4 ≤ n) :
    readBE32 (bs.take n) = readBE32 bs := by
  unfold readBE32
  rw [getD_take _ _ _ (by omega), getD_take _ _ _ (by omega), getD_take _ _ _ (by omega),
      getD_take _ _ _ (by omega)]

theorem parseChunksGo_fuel :
    ∀ f₁ f₂ (bs : List Nat), bs.length ≤ f₁ → bs.length ≤ f₂ →
      parseChunksGo f₁ bs = parseChunksGo f₂ bs := by
  intro f₁
  induction f₁ with
  | zero =>
    intro f₂ bs h₁ h₂
    match bs, f₂ with
    | [], 0 => rfl
    | [], _ + 1 => rfl
    | b :: bs, _ => simp at h₁
  | succ f ih =>
    intro f₂ bs h₁ h₂
    match bs, f₂ with
    | [], 0 => rfl
    | [], _ + 1 => rfl
    | b :: bs, 0 => simp at h₂
    | b :: bs, f₂ + 1 =>
      simp only [parseChunksGo]
      split
      case isTrue h =>
        rw [ih f₂ _ (by simp only [List.length_drop, List.length_cons] at h₁ ⊢; omega)
          (by simp only [List.length_drop, List.length_cons] at h₂ ⊢; omega)]
      case isFalse h => rfl

theorem parseChunksGo_eq (f : Nat) (bs : List Nat) (h : bs.length ≤ f) :
    parseChunksGo f bs = parseChunks bs :=
  parseChunksGo_fuel f bs.length bs h le_rfl

theorem parseChunks_nil : parseChunks [] = some [] := rfl

theorem parseChunks_step (bs : List Nat) (hbs : bs ≠ []) :
    parseChunks bs =
      if 12 + readBE32 bs ≤ bs.length then
        (parseChunks (bs.drop (12 + readBE32 bs))).map (headChunk bs :: ·)
      else none := by
  match bs, hbs with
  | b :: bs', _ =>
    show parseChunksGo (bs'.length + 1) (b :: bs') = _
    simp only [parseChunksGo, headChunk]
    split
    case isTrue h =>
      rw [parseChunksGo_eq _ _ (by simp only [List.length_drop, List.length_cons]; omega)]
    case isFalse h => rfl

theorem take_drop_append (raw Y : List Nat) (a n : Nat) (h : a + n ≤ raw.length) :
    ((raw ++ Y).drop a).take n = (raw.drop a).take n := by
  rw [List.drop_append_eq_append_drop, List.take_append_eq_append_take]
  have h1 : a - raw.length = 0 := by omega
  have h2 : n - (raw.drop a).length = 0 := by simp only [List.length_drop]; omega
  rw [h1, h2]
  simp

theorem parseChunks_raw (raw Y : List Nat) (hlen : raw.length = 12 + readBE32 raw) :
    parseChunks (raw ++ Y) = (parseChunks Y).map (headChunk raw :: ·) := by
  have hne : raw ++ Y ≠ [] := by
    intro h
    have := congrArg List.length h
    simp only [List.length_append, List.length_nil] at this
    omega
  have hr : readBE32 (raw ++ Y) = readBE32 raw := readBE32_append _ _ (by omega)
  have htail : (raw ++ Y).drop (12 + readBE32 raw) = Y := by
    rw [List.drop_append_eq_append_drop, List.drop_eq_nil_of_le (by omega),
        show 12 + readBE32 raw - raw.length = 0 by omega]
    simp
  have htyp : ((raw ++ Y).drop 4).take 4 = (raw.drop 4).take 4 :=
    take_drop_append _ _ _ _ (by omega)
  have hdata : ((raw ++ Y).drop 8).take (readBE32 raw) = (raw.drop 8).take (readBE32 raw) :=
    take_drop_append _ _ _ _ (by omega)
  have hcrc : ((raw ++ Y).drop (8 + readBE32 raw)).take 4 =
      (raw.drop (8 + readBE32 raw)).take 4 :=
    take_drop_append _ _ _ _ (by omega)
  rw [parseChunks_step _ hne, hr, if_pos (by simp only [List.length_append]; omega), htail]
  unfold headChunk
  rw [hr, htyp, hdata, hcrc]

theorem serializeChunk_length (c : Chunk) (h : c.typ.length = 4) :
    (serializeChunk c).length = 12 + c.data.length := by
  simp only [serializeChunk, List.length_append, length_be32, h]
  omega

theorem readBE32_serialize (c : Chunk) (hd : c.data.length < 2 ^ 32) :
    readBE32 (serializeChunk c) = c.data.length := by
  have hassoc : serializeChunk c =
      be32 c.data.length ++ (c.typ ++ (c.data ++ be32 c.crc)) := by
    simp [serializeChunk, List.append_assoc]
  rw [hassoc, readBE32_append _ _ (by rw [length_be32]), readBE32_be32 _ hd]

theorem headChunk_serialize (c : Chunk) (hwf : chunkWF c) :
    headChunk (serializeChunk c) = c := by
  obtain ⟨ht, hd, hc⟩ := hwf
  have hread : readBE32 (serializeChunk c) = c.data.length := readBE32_serialize c hd
  have h1 : ((serializeChunk c).drop 4).take 4 = c.typ := by
    have hassoc : serializeChunk c =
        be32 c.data.length ++ (c.typ ++ (c.data ++ be32 c.crc)) := by
      simp [serializeChunk, List.append_assoc]
    rw [hassoc, List.drop_left' (length_be32 _), List.take_left' ht]
  have h2 : ((serializeChunk c).drop 8).take c.data.length = c.data := by
    have hassoc : serializeChunk c =
        (be32 c.data.length ++ c.typ) ++ (c.data ++ be32 c.crc) := by
      simp [serializeChunk, List.append_assoc]
    rw [hassoc, List.drop_left' (by simp only [List.length_append, length_be32, ht]),
        List.take_left' rfl]
  have h3 : readBE32 (((serializeChunk c).drop (8 + c.data.length)).take 4) = c.crc := by
    have hassoc : serializeChunk c =
        (be32 c.data.length ++ c.typ ++ c.data) ++ be32 c.crc := rfl
    rw [hassoc, List.drop_left'
          (by simp only [List.length_append, length_be32, ht]; try omega),
        List.take_of_length_le (by rw [length_be32]), readBE32_be32 _ hc]
  unfold headChunk
  rw [hread, h1, h2, h3]

theorem parseChunks_serialize_cons (c : Chunk) (X : List Nat) (hwf : chunkWF c) :
    parseChunks (serializeChunk c ++ X) = (parseChunks X).map (c :: ·) := by
  rw [parseChunks_raw _ _
        (by rw [readBE32_serialize c hwf.2.1, serializeChunk_length c hwf.1]),
      headChunk_serialize c hwf]

theorem parseChunks_texts (tcs : List Chunk) (X : List Nat)
    (hwf : ∀ c ∈ tcs, chunkWF c) :
    parseChunks ((tcs.map serializeChunk).flatten ++ X) = (parseChunks X).map (tcs ++ ·) := by
  induction tcs with
  | nil =>
    simp only [List.map_nil, List.flatten_nil, List.nil_append]
    cases parseChunks X <;> rfl
  | cons c tcs ih =>
    simp only [List.map_cons, List.flatten_cons, List.append_assoc]
    rw [parseChunks_serialize_cons c _ (hwf c (by simp)),
        ih (fun d hd => hwf d (by simp [hd])), Option.map_map]
    cases parseChunks X <;> rfl

theorem headChunk_typ (bs : List Nat) : (headChunk bs).typ = (bs.drop 4).take 4 := rfl

theorem headChunk_take (bs : List Nat) :
    headChunk (bs.take (readBE32 bs + 12)) = headChunk bs := by
  have hr : readBE32 (bs.take (readBE32 bs + 12)) = readBE32 bs :=
    readBE32_take _ _ (by omega)
  have h1 : ((bs.take (readBE32 bs + 12)).drop 4).take 4 = (bs.drop 4).take 4 := by
    rw [List.drop_take, List.take_take, Nat.min_eq_left (by omega)]
  have h2 : ((bs.take (readBE32 bs + 12)).drop 8).take (readBE32 bs) =
      (bs.drop 8).take (readBE32 bs) := by
    rw [List.drop_take, List.take_take, Nat.min_eq_left (by omega)]
  have h3 : ((bs.take (readBE32 bs + 12)).drop (8 + readBE32 bs)).take 4 =
      (bs.drop (8 + readBE32 bs)).take 4 := by
    rw [List.drop_take, List.take_take, Nat.min_eq_left (by omega)]
  unfold headChunk
  rw [hr, h1, h2, h3]

theorem encodeLoopGo_inserted (texts : List (List Nat)) :
    ∀ (fuel : Nat) (bs : List Nat) (cs : List Chunk), bs.length ≤ fuel →
      parseChunks bs = some cs → encodeLoopGo texts fuel bs true = some bs := by
  intro fuel
  induction fuel with
  | zero =>
    intro bs cs h hp
    match bs with
    | [] => rfl
    | b :: bs => simp at h
  | succ fuel ih =>
    intro bs cs h hp
    match bs with
    | [] => rfl
    | b :: bs' =>
      rw [parseChunks_step _ (by simp)] at hp
      by_cases hcond : 12 + readBE32 (b :: bs') ≤ (b :: bs').length
      · rw [if_pos hcond] at hp
        obtain ⟨cs', hcs'⟩ :
            ∃ cs', parseChunks ((b :: bs').drop (12 + readBE32 (b :: bs'))) = some cs' := by
          cases hq : parseChunks ((b :: bs').drop (12 + readBE32 (b :: bs'))) with
          | none => rw [hq] at hp; simp at hp
          | some cs' => exact ⟨cs', rfl⟩
        have hrest : encodeLoopGo texts fuel ((b :: bs').drop (readBE32 (b :: bs') + 12))
            true = some ((b :: bs').drop (readBE32 (b :: bs') + 12)) := by
          refine ih _ cs' ?_ ?_
          · simp only [List.length_drop, List.length_cons] at h ⊢
            omega
          · rw [Nat.add_comm]
            exact hcs'
        simp only [encodeLoopGo]
        rw [if_neg (by simp only [List.length_cons] at hcond ⊢; omega)]
        rw [ite_self, hrest]
        rw [if_neg (by simp)]
        simp [List.take_append_drop]
      · rw [if_neg hcond] at hp
        simp at hp

theorem encodeLoopGo_insert (tcs : List Chunk) (hwf : ∀ c ∈ tcs, chunkWF c) :
    ∀ (fuel : Nat) (bs : List Nat) (cs : List Chunk), bs.length ≤ fuel →
      parseChunks bs = some cs →
      ∃ out, encodeLoopGo (tcs.map serializeChunk) fuel bs false = some out ∧
        parseChunks out = some (insertAfterIHDR tcs cs) := by
  intro fuel
  induction fuel with
  | zero =>
    intro bs cs h hp
    match bs with
    | [] =>
      refine ⟨[], rfl, ?_⟩
      rw [parseChunks_nil] at hp ⊢
      cases hp
      rfl
    | b :: bs => simp at h
  | succ fuel ih =>
    intro bs cs h hp
    match bs with
    | [] =>
      refine ⟨[], rfl, ?_⟩
      rw [parseChunks_nil] at hp ⊢
      cases hp
      rfl
    | b :: bs' =>
      rw [parseChunks_step _ (by simp)] at hp
      by_cases hcond : 12 + readBE32 (b :: bs') ≤ (b :: bs').length
      · rw [if_pos hcond] at hp
        obtain ⟨cs', hcs', rfl⟩ := Option.map_eq_some'.mp hp
        have hlen12 : 12 ≤ (b :: bs').length := by omega
        have hcond2 : readBE32 (b :: bs') + 12 ≤ (b :: bs').length := by omega
        have htypeq : [(b :: bs').getD 4 0, (b :: bs').getD 5 0, (b :: bs').getD 6 0,
            (b :: bs').getD 7 0] = ((b :: bs').drop 4).take 4 :=
          (getD_window _ (by omega)).symm
        have hdroplen : ((b :: bs').drop (readBE32 (b :: bs') + 12)).length ≤ fuel := by
          simp only [List.length_drop, List.length_cons] at h ⊢
          omega
        have hrawlen : ((b :: bs').take (readBE32 (b :: bs') + 12)).length =
            12 + readBE32 ((b :: bs').take (readBE32 (b :: bs') + 12)) := by
          rw [readBE32_take _ _ (by omega), List.length_take, Nat.min_eq_left (by omega)]
          omega
        simp only [encodeLoopGo]
        rw [if_neg (by simp only [List.length_cons] at hcond ⊢; omega)]
        rw [htypeq]
        by_cases hihdr : ((b :: bs').drop 4).take 4 = ihdrType
        · rw [if_pos hihdr, if_pos ⟨hihdr, trivial⟩]
          have hrest := encodeLoopGo_inserted (tcs.map serializeChunk) fuel
            ((b :: bs').drop (readBE32 (b :: bs') + 12)) cs' hdroplen
            (by rw [Nat.add_comm]; exact hcs')
          rw [hrest]
          refine ⟨_, rfl, ?_⟩
          simp only [List.append_assoc]
          rw [parseChunks_raw _ _ hrawlen, headChunk_take _,
              parseChunks_texts tcs _ hwf, Nat.add_comm (readBE32 (b :: bs')) 12, hcs']
          simp only [Option.map_some']
          simp only [insertAfterIHDR]
          rw [if_pos (show (headChunk (b :: bs')).typ = ihdrType from hihdr)]
        · rw [if_neg hihdr, if_neg (fun hcon => hihdr hcon.1)]
          obtain ⟨out', hout', hpout'⟩ := ih ((b :: bs').drop (readBE32 (b :: bs') + 12)) cs'
            hdroplen (by rw [Nat.add_comm]; exact hcs')
          rw [hout']
          refine ⟨_, rfl, ?_⟩
          simp only [List.append_assoc, List.nil_append]
          rw [parseChunks_raw _ _ hrawlen, headChunk_take _, hpout']
          simp only [Option.map_some']
          simp only [insertAfterIHDR]
          rw [if_neg (show ¬ (headChunk (b :: bs')).typ = ihdrType from hihdr)]
      · rw [if_neg hcond] at hp
        simp at hp

theorem textChunks_eq (m : ImageMetadata) :
    textChunks m = (textRecords m).map serializeChunk := by
  unfold textChunks textRecords
  rw [List.map_filterMap]
  congr 1
  funext p
  by_cases hp : p.2 = ""
  · simp [hp]
  · simp only [if_neg hp, Option.map_some']
    rfl

theorem textRecords_shape (m : ImageMetadata) (c : Chunk) (hc : c ∈ textRecords m) :
    ∃ k v, (k, v) ∈ keywordPairs m ∧ v ≠ "" ∧ c = textRecord k v := by
  obtain ⟨p, hpmem, hpc⟩ := List.mem_filterMap.mp hc
  by_cases hp : p.2 = ""
  · rw [if_pos hp] at hpc
    exact absurd hpc (by simp)
  · rw [if_neg hp] at hpc
    exact ⟨p.1, p.2, hpmem, hp, (Option.some.inj hpc).symm⟩

theorem textRecords_wf (m : ImageMetadata)
    (hm : ∀ c ∈ textRecords m, c.data.length < 2 ^ 32) :
    ∀ c ∈ textRecords m, chunkWF c := by
  intro c hc
  obtain ⟨k, v, _, _, rfl⟩ := textRecords_shape m c hc
  refine ⟨?_, hm _ hc, crc32_lt _⟩
  show (typeBytes "tEXt").length = 4
  decide

theorem chunkValid_textRecord (k v : String) : chunkValid (textRecord k v) := rfl

theorem software_mem_textRecords (m : ImageMetadata) :
    textRecord "Software" "Link2Infographic AI" ∈ textRecords m := by
  refine List.mem_filterMap.mpr ⟨("Software", "Link2Infographic AI"), ?_, ?_⟩
  · simp [keywordPairs]
  · exact if_neg (by decide)

theorem sublist_insertAfterIHDR (ts cs : List Chunk) :
    cs.Sublist (insertAfterIHDR ts cs) := by
  induction cs with
  | nil => simp [insertAfterIHDR]
  | cons c cs ih =>
    simp only [insertAfterIHDR]
    split
    · exact List.Sublist.cons₂ c (List.sublist_append_right ts cs)
    · exact List.Sublist.cons₂ c ih

theorem mem_insertAfterIHDR (ts cs : List Chunk) (c : Chunk)
    (hc : c ∈ insertAfterIHDR ts cs) : c ∈ ts ∨ c ∈ cs := by
  induction cs with
  | nil => simp [insertAfterIHDR] at hc
  | cons d cs ih =>
    simp only [insertAfterIHDR] at hc
    split at hc
    · rcases List.mem_cons.mp hc with h | h
      · right; simp [h]
      · rcases List.mem_append.mp h with h | h
        · left; exact h
        · right; simp [h]
    · rcases List.mem_cons.mp hc with h | h
      · right; simp [h]
      · rcases ih h with h | h
        · left; exact h
        · right; simp [h]

theorem mem_insertAfterIHDR_left (ts cs : List Chunk) (c : Chunk)
    (hihdr : ∃ d ∈ cs, d.typ = ihdrType) (hc : c ∈ ts) :
    c ∈ insertAfterIHDR ts cs := by
  induction cs with
  | nil => simp at hihdr
  | cons d cs ih =>
    simp only [insertAfterIHDR]
    split
    case isTrue h => simp [List.mem_append, hc]
    case isFalse h =>
      rcases hihdr with ⟨e, he, hetyp⟩
      rcases List.mem_cons.mp he with rfl | he'
      · exact absurd hetyp h
      · exact List.mem_cons_of_mem _ (ih ⟨e, he', hetyp⟩)

theorem length_insertAfterIHDR (ts cs : List Chunk)
    (hihdr : ∃ d ∈ cs, d.typ = ihdrType) :
    (insertAfterIHDR ts cs).length = cs.length + ts.length := by
  induction cs with
  | nil => simp at hihdr
  | cons d cs ih =>
    simp only [insertAfterIHDR]
    split
    case isTrue h =>
      simp only [List.length_cons, List.length_append]
      omega
    case isFalse h =>
      rcases hihdr with ⟨e, he, hetyp⟩
      rcases List.mem_cons.mp he with rfl | he'
      · exact absurd hetyp h
      · simp only [List.length_cons, ih ⟨e, he', hetyp⟩]
        omega

theorem downloadWithMetadata_spec (bytes : List Nat) (m : ImageMetadata) (cs : List Chunk)
    (hparse : parseChunks (bytes.drop 8) = some cs)
    (hm : ∀ c ∈ textRecords m, c.data.length < 2 ^ 32) :
    ∃ out, downloadWithMetadata bytes m = bytes.take 8 ++ out ∧
      parseChunks out = some (insertAfterIHDR (textRecords m) cs) := by
  obtain ⟨out, ho, hp⟩ := encodeLoopGo_insert (textRecords m) (textRecords_wf m hm)
    (bytes.drop 8).length (bytes.drop 8) cs le_rfl hparse
  refine ⟨out, ?_, hp⟩
  unfold downloadWithMetadata encodeLoop
  rw [textChunks_eq, ho]

theorem length_of_take_sig {bytes : List Nat} (h : bytes.take 8 = pngSignature) :
    8 ≤ bytes.length := by
  have hl := congrArg List.length h
  simp only [List.length_take, pngSignature] at hl
  simp at hl
  omega

theorem take8_append {bytes out : List Nat} (h : 8 ≤ bytes.length) :
    (bytes.take 8 ++ out).take 8 = bytes.take 8 :=
  List.take_left' (by simp only [List.length_take]; omega)

theorem drop8_append {bytes out : List Nat} (h : 8 ≤ bytes.length) :
    (bytes.take 8 ++ out).drop 8 = out :=
  List.drop_left' (by simp only [List.length_take]; omega)

/-! Claim theorems. -/

/-- C2: `crc32` maps the empty byte sequence to `0x00000000` and the ASCII
bytes of `"123456789"` to `0xCBF43926`, the standard CRC-32/PNG test
vector, computed over the precomputed table for polynomial `0xEDB88320`. -/
theorem c2_crc32_test_vectors :
    crc32 [] = 0x00000000 ∧
    crc32 [0x31, 0x32, 0x33, 0x34, 0x35, 0x36, 0x37, 0x38, 0x39] = 0xCBF43926 :=
  ⟨by decide, by decide⟩

/-- C1: for a well-formed PNG input (signature plus bytes that tile into
chunks) and any metadata record (whose created chunks have data that fits
the 4-byte length field), the output starts with the input's first 8
bytes, its chunk stream re-parses to the original chunks with the created
text chunks spliced immediately after the first `IHDR` chunk, and the
original chunks all survive in order. -/
theorem c1_round_trip (bytes : List Nat) (m : ImageMetadata) (cs : List Chunk)
    (hsig : bytes.take 8 = pngSignature)
    (hparse : parseChunks (bytes.drop 8) = some cs)
    (hm : ∀ c ∈ textRecords m, c.data.length < 2 ^ 32) :
    (downloadWithMetadata bytes m).take 8 = bytes.take 8 ∧
    parseChunks ((downloadWithMetadata bytes m).drop 8) =
      some (insertAfterIHDR (textRecords m) cs) ∧
    cs.Sublist (insertAfterIHDR (textRecords m) cs) := by
  obtain ⟨out, ho, hp⟩ := downloadWithMetadata_spec bytes m cs hparse hm
  have h8 := length_of_take_sig hsig
  rw [ho]
  exact ⟨take8_append h8, by rw [drop8_append h8]; exact hp, sublist_insertAfterIHDR _ _⟩

/-- Witness for C1 at the minimal PNG and the scenario metadata. -/
theorem c1_round_trip_witness :
    (minimalPNG.take 8 = pngSignature ∧
     parseChunks (minimalPNG.drop 8) =
       some minimalChunks ∧
     ∀ c ∈ textRecords demoMetadata, c.data.length < 2 ^ 32) ∧
    ((downloadWithMetadata minimalPNG demoMetadata).take 8 = minimalPNG.take 8 ∧
     parseChunks ((downloadWithMetadata minimalPNG demoMetadata).drop 8) =
       some (insertAfterIHDR (textRecords demoMetadata) minimalChunks) ∧
     minimalChunks.Sublist (insertAfterIHDR (textRecords demoMetadata) minimalChunks)) :=
  ⟨⟨by decide, by decide, by decide⟩,
   c1_round_trip minimalPNG demoMetadata minimalChunks (by decide) (by decide) (by decide)⟩

/-- C3: if every chunk of the input satisfies `crc = CRC32(type ++ data)`,
then every chunk of the output (passed-through or newly created) satisfies
it as well. -/
theorem c3_crc_invariant (bytes : List Nat) (m : ImageMetadata) (cs : List Chunk)
    (hsig : bytes.take 8 = pngSignature)
    (hparse : parseChunks (bytes.drop 8) = some cs)
    (hvalid : ∀ c ∈ cs, chunkValid c)
    (hm : ∀ c ∈ textRecords m, c.data.length < 2 ^ 32) :
    ∃ cs', parseChunks ((downloadWithMetadata bytes m).drop 8) = some cs' ∧
      ∀ c ∈ cs', chunkValid c := by
  obtain ⟨out, ho, hp⟩ := downloadWithMetadata_spec bytes m cs hparse hm
  have h8 := length_of_take_sig hsig
  refine ⟨insertAfterIHDR (textRecords m) cs, by rw [ho, drop8_append h8]; exact hp, ?_⟩
  intro c hc
  rcases mem_insertAfterIHDR _ _ _ hc with h | h
  · obtain ⟨k, v, _, _, rfl⟩ := textRecords_shape m c h
    exact chunkValid_textRecord k v
  · exact hvalid c h

/-- Witness for C3 at the minimal PNG and the scenario metadata. -/
theorem c3_crc_invariant_witness :
    (minimalPNG.take 8 = pngSignature ∧
     parseChunks (minimalPNG.drop 8) =
       some minimalChunks ∧
     (∀ c ∈ minimalChunks, chunkValid c) ∧
     ∀ c ∈ textRecords demoMetadata, c.data.length < 2 ^ 32) ∧
    (∃ cs', parseChunks ((downloadWithMetadata minimalPNG demoMetadata).drop 8) = some cs' ∧
      ∀ c ∈ cs', chunkValid c) :=
  ⟨⟨by decide, by decide, by decide, by decide⟩,
   c3_crc_invariant minimalPNG demoMetadata minimalChunks (by decide) (by decide) (by decide)
     (by decide)⟩

/-- C9: re-encoding an already-embedded PNG with the same metadata leaves
every chunk of the first output intact and in order, and splices in a
second, independent set of text chunks; no chunk is mutated. -/
theorem c9_reencode (bytes : List Nat) (m : ImageMetadata) (cs : List Chunk)
    (hsig : bytes.take 8 = pngSignature)
    (hparse : parseChunks (bytes.drop 8) = some cs)
    (hm : ∀ c ∈ textRecords m, c.data.length < 2 ^ 32) :
    ∃ cs₁, parseChunks ((downloadWithMetadata bytes m).drop 8) = some cs₁ ∧
      parseChunks ((downloadWithMetadata (downloadWithMetadata bytes m) m).drop 8) =
        some (insertAfterIHDR (textRecords m) cs₁) ∧
      cs₁.Sublist (insertAfterIHDR (textRecords m) cs₁) := by
  obtain ⟨out, ho, hp⟩ := downloadWithMetadata_spec bytes m cs hparse hm
  have h8 := length_of_take_sig hsig
  have hd1 : (downloadWithMetadata bytes m).drop 8 = out := by
    rw [ho]
    exact drop8_append h8
  refine ⟨insertAfterIHDR (textRecords m) cs, by rw [hd1]; exact hp, ?_,
    sublist_insertAfterIHDR _ _⟩
  obtain ⟨out2, ho2, hp2⟩ := downloadWithMetadata_spec (downloadWithMetadata bytes m) m _
    (by rw [hd1]; exact hp) hm
  have h8' : 8 ≤ (downloadWithMetadata bytes m).length := by
    rw [ho]
    simp only [List.length_append, List.length_take]
    omega
  rw [ho2, drop8_append h8']
  exact hp2

/-- Witness for C9 at the minimal PNG and the scenario metadata. -/
theorem c9_reencode_witness :
    (minimalPNG.take 8 = pngSignature ∧
     parseChunks (minimalPNG.drop 8) =
       some minimalChunks ∧
     ∀ c ∈ textRecords demoMetadata, c.data.length < 2 ^ 32) ∧
    (∃ cs₁, parseChunks ((downloadWithMetadata minimalPNG demoMetadata).drop 8) = some cs₁ ∧
      parseChunks
          ((downloadWithMetadata (downloadWithMetadata minimalPNG demoMetadata)
            demoMetadata).drop 8) =
        some (insertAfterIHDR (textRecords demoMetadata) cs₁) ∧
      cs₁.Sublist (insertAfterIHDR (textRecords demoMetadata) cs₁)) :=
  ⟨⟨by decide, by decide, by decide⟩,
   c9_reencode minimalPNG demoMetadata minimalChunks (by decide) (by decide) (by decide)⟩

/-- C10: for a well-formed PNG containing an `IHDR` chunk and any metadata
record -- the all-empty one included -- the success-path output contains a
newly inserted `Software`/`Link2Infographic AI` text chunk, so the output
is never identical to the input. -/
theorem c10_software_always (bytes : List Nat) (m : ImageMetadata) (cs : List Chunk)
    (hsig : bytes.take 8 = pngSignature)
    (hparse : parseChunks (bytes.drop 8) = some cs)
    (hm : ∀ c ∈ textRecords m, c.data.length < 2 ^ 32)
    (hihdr : ∃ c ∈ cs, c.typ = ihdrType) :
    ∃ cs', parseChunks ((downloadWithMetadata bytes m).drop 8) = some cs' ∧
      textRecord "Software" "Link2Infographic AI" ∈ cs' ∧
      downloadWithMetadata bytes m ≠ bytes := by
  obtain ⟨out, ho, hp⟩ := downloadWithMetadata_spec bytes m cs hparse hm
  have h8 := length_of_take_sig hsig
  refine ⟨insertAfterIHDR (textRecords m) cs, by rw [ho, drop8_append h8]; exact hp,
    mem_insertAfterIHDR_left _ _ _ hihdr (software_mem_textRecords m), ?_⟩
  intro hcon
  have hsame : parseChunks (bytes.drop 8) =
      some (insertAfterIHDR (textRecords m) cs) := by
    conv_lhs => rw [← hcon]
    rw [ho, drop8_append h8]
    exact hp
  rw [hparse] at hsame
  have hlen := congrArg (fun o => (Option.getD o []).length) hsame
  simp only [Option.getD_some] at hlen
  rw [length_insertAfterIHDR _ _ hihdr] at hlen
  have hsw : textRecord "Software" "Link2Infographic AI" ∈ textRecords m :=
    software_mem_textRecords m
  have hpos : 1 ≤ (textRecords m).length :=
    List.length_pos.mpr (List.ne_nil_of_mem hsw)
  omega

/-- Witness for C10 at the minimal PNG and the all-empty metadata. -/
theorem c10_software_always_witness :
    (minimalPNG.take 8 = pngSignature ∧
     parseChunks (minimalPNG.drop 8) =
       some minimalChunks ∧
     (∀ c ∈ textRecords emptyMetadata, c.data.length < 2 ^ 32) ∧
     (∃ c ∈ minimalChunks, c.typ = ihdrType)) ∧
    (∃ cs', parseChunks ((downloadWithMetadata minimalPNG emptyMetadata).drop 8) = some cs' ∧
      textRecord "Software" "Link2Infographic AI" ∈ cs' ∧
      downloadWithMetadata minimalPNG emptyMetadata ≠ minimalPNG) :=
  ⟨⟨by decide, by decide, by decide, by decide⟩,
   c10_software_always minimalPNG emptyMetadata minimalChunks (by decide) (by decide)
     (by decide) (by decide)⟩

theorem scanThrowsGo_encode (texts : List (List Nat)) :
    ∀ (fuel : Nat) (bs : List Nat) (inserted : Bool), scanThrowsGo fuel bs = true →
      encodeLoopGo texts fuel bs inserted = none := by
  intro fuel
  induction fuel with
  | zero =>
    intro bs inserted h
    match bs with
    | [] => cases h
    | b :: bs => rfl
  | succ fuel ih =>
    intro bs inserted h
    match bs with
    | [] => cases h
    | b :: bs' =>
      simp only [scanThrowsGo] at h
      simp only [encodeLoopGo]
      by_cases h4 : (b :: bs').length < 4
      · rw [if_pos h4]
      · rw [if_neg h4] at h
        rw [if_neg h4, ih _ _ h]
        rfl

theorem scanHitsIHDRGo_encode (texts : List (List Nat)) :
    ∀ (fuel : Nat) (bs : List Nat) (inserted : Bool) (t : List Nat),
      scanHitsIHDRGo fuel bs = false →
      encodeLoopGo texts fuel bs inserted = some t → t = bs := by
  intro fuel
  induction fuel with
  | zero =>
    intro bs inserted t h henc
    match bs with
    | [] => exact (Option.some.inj henc).symm
    | b :: bs => cases henc
  | succ fuel ih =>
    intro bs inserted t h henc
    match bs with
    | [] => exact (Option.some.inj henc).symm
    | b :: bs' =>
      simp only [scanHitsIHDRGo] at h
      simp only [encodeLoopGo] at henc
      by_cases h4 : (b :: bs').length < 4
      · rw [if_pos h4] at henc
        cases henc
      · rw [if_neg h4] at h henc
        by_cases hty : [(b :: bs').getD 4 0, (b :: bs').getD 5 0, (b :: bs').getD 6 0,
            (b :: bs').getD 7 0] = ihdrType
        · rw [if_pos hty] at h
          cases h
        · rw [if_neg hty] at h
          rw [if_neg hty, if_neg (fun hcon => hty hcon.1)] at henc
          obtain ⟨t', ht', rfl⟩ := Option.map_eq_some'.mp henc
          rw [ih _ _ _ h ht']
          simp only [List.append_nil, List.nil_append]
          exact List.take_append_drop _ _

/-- C4 (amended): the encoder performs no signature check at all.  For any
input -- in particular one whose first 8 bytes differ from the PNG
signature -- whose chunk scan from offset 8 never reads an `IHDR` type
tag, the output equals the input (either the pass copies every chunk slice
verbatim, or the length read throws and the fallback returns the
original); when the scan does meet an `IHDR` tag, text chunks are inserted
and the output differs (see the counterexample). -/
theorem c4_no_signature_check (bytes : List Nat) (m : ImageMetadata)
    (_hsig : bytes.take 8 ≠ pngSignature)
    (hscan : scanHitsIHDR (bytes.drop 8) = false) :
    downloadWithMetadata bytes m = bytes := by
  unfold downloadWithMetadata encodeLoop
  cases henc : encodeLoopGo (textChunks m) (bytes.drop 8).length (bytes.drop 8) false with
  | none => rfl
  | some t =>
    rw [scanHitsIHDRGo_encode _ _ _ _ _ hscan henc]
    exact List.take_append_drop 8 bytes

/-- Witness for the amended C4: 20 zero bytes are not PNG-signed, contain
no IHDR tag, and pass through unchanged. -/
theorem c4_no_signature_check_witness :
    ((List.replicate 20 0).take 8 ≠ pngSignature ∧
     scanHitsIHDR ((List.replicate 20 0).drop 8) = false) ∧
    downloadWithMetadata (List.replicate 20 0) emptyMetadata = List.replicate 20 0 :=
  ⟨⟨by decide, by decide⟩,
   c4_no_signature_check (List.replicate 20 0) emptyMetadata (by decide) (by decide)⟩

/-- C4 fails on the code as claimed: a stream whose first 8 bytes are not
the PNG signature but which carries an IHDR-framed chunk at offset 8 comes
back modified (text chunks are inserted), not unchanged. -/
theorem c4_counterexample :
    zeroHeaderInput.take 8 ≠ pngSignature ∧
    downloadWithMetadata zeroHeaderInput emptyMetadata ≠ zeroHeaderInput :=
  ⟨by decide, by decide⟩

/-- C5 (amended): the encoder falls back to the original bytes only when a
chunk boundary is reached with fewer than 4 bytes remaining (the
`DataView.getUint32` read throws); a chunk whose declared length merely
overruns the stream is copied verbatim instead (see the counterexample). -/
theorem c5_short_remainder_fallback (bytes : List Nat) (m : ImageMetadata)
    (h : scanThrows (bytes.drop 8) = true) :
    downloadWithMetadata bytes m = bytes := by
  unfold downloadWithMetadata encodeLoop
  rw [scanThrowsGo_encode _ _ _ _ h]

/-- Witness for the amended C5: a signature followed by 2 stray bytes
throws at the first length read and falls back unchanged. -/
theorem c5_short_remainder_fallback_witness :
    scanThrows ((pngSignature ++ [0, 0]).drop 8) = true ∧
    downloadWithMetadata (pngSignature ++ [0, 0]) emptyMetadata = pngSignature ++ [0, 0] :=
  ⟨by decide, c5_short_remainder_fallback (pngSignature ++ [0, 0]) emptyMetadata (by decide)⟩

/-- C5 fails on the code as claimed: `truncatedInput`'s second chunk
declares 100 data bytes with only 2 present (the declared length extends
past the end of the stream), yet the encoder does not return the input
unchanged -- it inserts metadata after IHDR and copies the truncated
bytes. -/
theorem c5_counterexample :
    readBE32 (truncatedInput.drop 33) + 12 > (truncatedInput.drop 33).length ∧
    downloadWithMetadata truncatedInput emptyMetadata ≠ truncatedInput :=
  ⟨by decide, by decide⟩

/-- C6 fails on the code as claimed: with the scenario metadata the output
of the minimal PNG contains three new text chunks (Title, Description and
the always-added Software), not exactly two. -/
theorem c6_counterexample :
    countTextChunks ((parseChunks (minimalPNG.drop 8)).getD []) = 0 ∧
    countTextChunks
      ((parseChunks ((downloadWithMetadata minimalPNG demoMetadata).drop 8)).getD []) = 3 ∧
    ¬ countTextChunks
      ((parseChunks ((downloadWithMetadata minimalPNG demoMetadata).drop 8)).getD []) = 2 :=
  ⟨by decide, by decide, by decide⟩

/-- C6 (amended): for the minimal PNG and the scenario metadata the output
contains exactly three new text chunks -- Title, Description and Software
-- in that order right after IHDR; the description payload is the UTF-8
encoding of `"测试"`, and the IDAT and IEND chunks are byte-identical to
the input's. -/
theorem c6_scenario :
    parseChunks (minimalPNG.drop 8) = some minimalChunks ∧
    parseChunks ((downloadWithMetadata minimalPNG demoMetadata).drop 8) =
      some [chunkOf "IHDR" ihdrData, textRecord "Title" "Demo",
            textRecord "Description" "测试", textRecord "Software" "Link2Infographic AI",
            chunkOf "IDAT" idatData, chunkOf "IEND" []] ∧
    (textRecord "Description" "测试").data =
      utf8 "Description" ++ 0 :: [230, 181, 139, 232, 175, 149] :=
  ⟨by decide, by decide, by decide⟩

theorem textData_ne (k k' v v' : String) (i : Nat)
    (hi : i < (utf8 k).length) (hi' : i < (utf8 k').length)
    (hne : (utf8 k).getD i 0 ≠ (utf8 k').getD i 0) :
    utf8 k ++ 0 :: utf8 v ≠ utf8 k' ++ 0 :: utf8 v' := by
  intro h
  have hg := congrArg (fun l => l.getD i 0) h
  simp only at hg
  rw [List.getD_append _ _ _ _ hi, List.getD_append _ _ _ _ hi'] at hg
  exact hne hg

/-- C7 fails on the code as claimed: a whitespace-only title (here `" "`)
is truthy in the source's `if (!value) continue` test, so a Title text
chunk does appear in the output. -/
theorem c7_counterexample :
    blankTitleMetadata.title = " " ∧
    textRecord "Title" " " ∈
      (parseChunks ((downloadWithMetadata minimalPNG blankTitleMetadata).drop 8)).getD [] :=
  ⟨rfl, by decide⟩

/-- C7 (amended): only fields equal to the empty string are omitted -- if
a field's value is `""`, no created text chunk carries that field's
keyword (whereas whitespace-only fields do produce a chunk). -/
theorem c7_empty_field_omitted (m : ImageMetadata) (k : String)
    (hk : (k, "") ∈ keywordPairs m) :
    ∀ c ∈ textRecords m, ∀ v : String, c.data ≠ utf8 k ++ 0 :: utf8 v := by
  intro c hc v
  obtain ⟨k', v', hmem', hne', rfl⟩ := textRecords_shape m c hc
  show textChunkData k' v' ≠ utf8 k ++ 0 :: utf8 v
  unfold textChunkData
  simp only [keywordPairs, List.mem_cons, List.not_mem_nil, or_false, Prod.mk.injEq]
    at hk hmem'
  rcases hk with ⟨rfl, hk0⟩ | ⟨rfl, cKhk0⟩ | ⟨rfl, hk0⟩ | ⟨rfl, hk0⟩ | ⟨rfl, hk0⟩ | ⟨rfl, hk0⟩ <;>
    rcases hmem' with ⟨rfl, rfl⟩ | ⟨rfl, rfl⟩ | ⟨rfl, rfl⟩ | ⟨rfl, rfl⟩ | ⟨rfl, rfl⟩ | ⟨rfl, rfl⟩ <;>
    first
      | exact absurd hk0.symm hne'
      | exact absurd cKhk0.symm hne'
      | exact absurd hk0 (by decide)
      | exact textData_ne _ _ _ _ 0 (by decide) (by decide) (by decide)
      | exact textData_ne _ _ _ _ 1 (by decide) (by decide) (by decide)

/-- Witness for the amended C7 at the all-empty record and the `Title`
field. -/
theorem c7_empty_field_omitted_witness :
    (("Title", "") ∈ keywordPairs emptyMetadata) ∧
    (∀ c ∈ textRecords emptyMetadata, ∀ v : String,
      c.data ≠ utf8 "Title" ++ 0 :: utf8 v) :=
  ⟨by decide, c7_empty_field_omitted emptyMetadata "Title" (by decide)⟩

/-- C8 fails on the code as claimed: the created text chunks do not carry
the `iTXt` tag (they carry `tEXt`). -/
theorem c8_counterexample :
    ¬ ∀ c ∈ textRecords emptyMetadata, c.typ = typeBytes "iTXt" := by
  decide

/-- C8 (amended): every created text chunk uses the plain `tEXt` tag, and
its payload is `keyword ++ 0x00 ++ UTF-8 value bytes` -- there is no
compression flag, compression method, language tag or translated keyword
field. -/
theorem c8_created_chunks_plain (m : ImageMetadata) (c : Chunk)
    (hc : c ∈ textRecords m) :
    c.typ = typeBytes "tEXt" ∧
    ∃ k v, (k, v) ∈ keywordPairs m ∧ v ≠ "" ∧ c.data = utf8 k ++ 0 :: utf8 v := by
  obtain ⟨k, v, hmem, hne, rfl⟩ := textRecords_shape m c hc
  exact ⟨rfl, k, v, hmem, hne, rfl⟩

/-- Witness for the amended C8 at the always-created Software chunk. -/
theorem c8_created_chunks_plain_witness :
    (textRecord "Software" "Link2Infographic AI" ∈ textRecords emptyMetadata) ∧
    ((textRecord "Software" "Link2Infographic AI").typ = typeBytes "tEXt" ∧
     ∃ k v, (k, v) ∈ keywordPairs emptyMetadata ∧ v ≠ "" ∧
       (textRecord "Software" "Link2Infographic AI").data = utf8 k ++ 0 :: utf8 v) :=
  ⟨by decide,
   c8_created_chunks_plain emptyMetadata (textRecord "Software" "Link2Infographic AI")
     (by decide)⟩

end ImageService
